import Mathlib

/-!
# JSON_OBJECT: value model, encoder and decoder

A shallow embedding of `__JSON_OBJECT.h` / `__JSON_OBJECT.cpp`.

* `std::string` is a list of `char` values (`Str`); one `Char` stands for one `char`.
* `size_t` is a natural number below `2 ^ 64`; `std::string::npos` is `2 ^ 64 - 1`
  and every `+ 1`, `+ 2`, `- 1` done on a `size_t` in the source is reduced modulo `2 ^ 64`.
* `std::map<std::string, JSON_OBJECT>` is an association list kept in ascending key order
  by `map_emplace`.
* A C++ exception is an `Except.error`; loops and recursion of the decoder are driven by
  a fuel counter, and running out of it is the outcome `Exn.out_of_fuel`.
-/

namespace JsonObject

/-- Contents of a `std::string`. -/
abbrev Str := List Char

/-- Number of values of `size_t` (64-bit): `2 ^ 64`. -/
def SIZE_T_RANGE : Nat := 18446744073709551616

/-- The constant `std::string::npos`, the largest `size_t`: `2 ^ 64 - 1`. -/
def npos : Nat := 18446744073709551615

/-- Outcomes other than a normal return. -/
inductive Exn where
  | out_of_range
  | logic_error
  | undefined_behaviour
  | out_of_fuel
  deriving DecidableEq, Repr

/-- Handle standing for a `std::function<JSON_OBJECT(JSON_OBJECT)>` object. -/
abbrev FuncHandle := Nat

/-- The class `JSON_OBJECT`: four optional members. -/
inductive JSON_OBJECT where
  | mk (singleValue : Option Str) (valueArray : Option (List JSON_OBJECT))
      (data : Option (List (Str × JSON_OBJECT))) (function : Option FuncHandle) : JSON_OBJECT

namespace JSON_OBJECT

/-- Member `singleValue`. -/
def singleValue : JSON_OBJECT → Option Str
  | mk s _ _ _ => s

/-- Member `valueArray`. -/
def valueArray : JSON_OBJECT → Option (List JSON_OBJECT)
  | mk _ a _ _ => a

/-- Member `data`. -/
def data : JSON_OBJECT → Option (List (Str × JSON_OBJECT))
  | mk _ _ d _ => d

/-- Member `function`. -/
def function : JSON_OBJECT → Option FuncHandle
  | mk _ _ _ f => f

end JSON_OBJECT

open JSON_OBJECT

/-- Default constructor `JSON_OBJECT()`: every member empty. -/
def Null : JSON_OBJECT := .mk none none none none

/-- Constructor `JSON_OBJECT(std::string val)`. -/
def ofString (val : Str) : JSON_OBJECT := .mk (some val) none none none

/-- Constructor `JSON_OBJECT(std::function<...> func)`. -/
def ofFunction (func : FuncHandle) : JSON_OBJECT := .mk none none none (some func)

/-- A value whose only populated member is `valueArray`. -/
def ofArray (elems : List JSON_OBJECT) : JSON_OBJECT := .mk none (some elems) none none

/-- A value whose only populated member is `data`. -/
def ofMap (entries : List (Str × JSON_OBJECT)) : JSON_OBJECT := .mk none none (some entries) none

/-- Method `IsArray`. -/
def IsArray (this : JSON_OBJECT) : Bool := this.valueArray.isSome

/-- Method `IsNull`. -/
def IsNull (this : JSON_OBJECT) : Bool :=
  !this.singleValue.isSome && !this.valueArray.isSome && !this.data.isSome && !this.function.isSome

/-- Method `Reset`. -/
def Reset (_this : JSON_OBJECT) : JSON_OBJECT := .mk none none none none

/-! ## `std::string` operations used by the source -/

/-- Call `s.find_first_of(c)`: index of the first `c`, or `npos`. -/
def find_first_of (s : Str) (c : Char) : Nat :=
  if c ∈ s then s.indexOf c else npos

/-- Call `s.substr(pos, count)` for `pos <= s.size()` (the source always passes `pos = 0`). -/
def substr (s : Str) (pos count : Nat) : Str := (s.drop pos).take count

/-- Call `s.erase(index, count)` for `index <= s.size()` (the source always passes
`index = 0` in the two-argument form). -/
def erase (s : Str) (index count : Nat) : Str := s.take index ++ s.drop (index + count)

/-- Call `s.erase(index)`: drops everything from `index` on; throws `std::out_of_range`
when `index > s.size()`. -/
def erase_from (s : Str) (index : Nat) : Except Exn Str :=
  if index > s.length then .error .out_of_range else .ok (s.take index)

/-- Expression `s[i]`: the character at `i`, the terminator for `i = s.size()`, and
undefined behaviour (`none`) beyond. -/
def index (s : Str) (i : Nat) : Option Char :=
  if i < s.length then s.get? i else if i = s.length then some (Char.ofNat 0) else none

/-- Expression `s.size() - 1` in `size_t` arithmetic: `0 - 1` wraps around to `npos`. -/
def size_minus_one (s : Str) : Nat := if s.length = 0 then npos else s.length - 1

/-- Function `ClearEnclosingChars`. -/
def ClearEnclosingChars (c1 c2 : Char) (s : Str) : Except Exn (Bool × Str) :=
  match index s 0 with
  | none => .error .undefined_behaviour
  | some a =>
    if a ≠ c1 then .ok (false, s)
    else
      match index s (size_minus_one s) with
      | none => .error .undefined_behaviour
      | some b =>
        if b ≠ c2 then .ok (false, s)
        else
          let s1 := erase s 0 1
          match erase_from s1 (size_minus_one s1) with
          | .error e => .error e
          | .ok s2 => .ok (true, s2)

/-! ## `std::map<std::string, JSON_OBJECT>` -/

/-- Comparison `a < b` of `std::string`: lexicographic on the characters. -/
def string_less : Str → Str → Bool
  | _, [] => false
  | [], _ :: _ => true
  | a :: as, b :: bs =>
    if a < b then true else if b < a then false else string_less as bs

/-- Call `m.emplace(k, v)` on a map held in ascending key order: the pair is inserted at
its place, and nothing changes when an equivalent key is already there. -/
def map_emplace {α : Type} (k : Str) (v : α) : List (Str × α) → List (Str × α)
  | [] => [(k, v)]
  | (k', v') :: m =>
    if string_less k k' then (k, v) :: (k', v') :: m
    else if string_less k' k then (k', v') :: map_emplace k v m
    else (k', v') :: m

/-- Call `m.find(k)`, giving the mapped value. -/
def map_find {α : Type} (k : Str) : List (Str × α) → Option α
  | [] => none
  | (k', v') :: m => if k' = k then some v' else map_find k m

/-- Class invariant of `std::map`: keys strictly ascending. -/
def map_ok {α : Type} (m : List (Str × α)) : Prop :=
  m.Pairwise (fun a b => string_less a.1 b.1 = true)

instance {α : Type} (m : List (Str × α)) : Decidable (map_ok m) :=
  inferInstanceAs (Decidable (m.Pairwise (fun (a b : Str × α) => string_less a.1 b.1 = true)))

/-! ## Mutators -/

/-- Method `push_back`. -/
def push_back (this val : JSON_OBJECT) : Except Exn JSON_OBJECT :=
  match this with
  | .mk s (some a) d f => .ok (.mk s (some (a ++ [val])) d f)
  | .mk s none d f =>
    if !IsNull (.mk s none d f) then .error .logic_error
    else .ok (.mk s (some [val]) d f)

/-- Method `AddProperty(const std::string&, const JSON_OBJECT&)`. -/
def AddProperty (this : JSON_OBJECT) (key : Str) (val : JSON_OBJECT) : Except Exn JSON_OBJECT :=
  match this with
  | .mk s a (some m) f => .ok (.mk s a (some (map_emplace key val m)) f)
  | .mk s a none f =>
    if !IsNull (.mk s a none f) then .error .logic_error
    else .ok (.mk s a (some [(key, val)]) f)

/-- Method `AddProperty(const std::string&, const std::string&)`. -/
def AddPropertyString (this : JSON_OBJECT) (key val : Str) : Except Exn JSON_OBJECT :=
  AddProperty this key (ofString val)

/-! ## Encoder -/

mutual
/-- Method `JSONObjectToString`.  The two `output.erase(output.size() - 1)` calls run on a
buffer that holds at least its opening character, so they drop its last character. -/
def JSONObjectToString : JSON_OBJECT → Str
  | .mk (some s) _ _ _ => ['"'] ++ s ++ ['"']
  | .mk none (some arr) _ _ =>
    let output := arrayElements arr ['[']
    let output := output.take (output.length - 1)
    output ++ [']']
  | .mk none none (some m) _ =>
    let output := objectProperties m ['\x7b']
    let output := output.take (output.length - 1)
    output ++ ['\x7d']
  | .mk none none none _ => ['n', 'u', 'l', 'l']
/-- Loop `for (auto element : *valueArray)` of `JSONObjectToString`. -/
def arrayElements : List JSON_OBJECT → Str → Str
  | [], output => output
  | element :: rest, output =>
    arrayElements rest ((output ++ JSONObjectToString element) ++ [','])
/-- Loop `for (auto prop : *data)` of `JSONObjectToString`. -/
def objectProperties : List (Str × JSON_OBJECT) → Str → Str
  | [], output => output
  | (key, val) :: rest, output =>
    objectProperties rest
      (((output ++ (['"'] ++ key ++ ['"', ':'])) ++ JSONObjectToString val) ++ [','])
end

/-! ## Decoder -/

/-- Object loop of `StringToJSON` (`while (end != string::npos)`), one unit of fuel per pass. -/
def objectLoop : Nat → Nat → JSON_OBJECT → Str → Except Exn (JSON_OBJECT × Str)
  | 0, _, _, _ => .error .out_of_fuel
  | fuel + 1, end_, this, input =>
    if end_ ≠ npos then
      let end_ := find_first_of input ':'
      let key := substr input 0 end_
      match ClearEnclosingChars '"' '"' key with
      | .error e => .error e
      | .ok (_, key) =>
        let input := erase input 0 ((end_ + 1) % SIZE_T_RANGE)
        let end_ := find_first_of input ','
        let val := substr input 0 end_
        match ClearEnclosingChars '"' '"' val with
        | .error e => .error e
        | .ok (_, val) =>
          match AddPropertyString this key val with
          | .error e => .error e
          | .ok this =>
            let input := erase input 0 ((end_ + 1) % SIZE_T_RANGE)
            objectLoop fuel end_ this input
    else .ok (this, input)

mutual
/-- Method `StringToJSON`; returns the receiver and the consumed buffer.  One unit of fuel
per call. -/
def StringToJSON : Nat → JSON_OBJECT → Str → Except Exn (JSON_OBJECT × Str)
  | 0, _, _ => .error .out_of_fuel
  | fuel + 1, this, input =>
    let this := Reset this
    let tempJSON := Null
    match ClearEnclosingChars '[' ']' input with
    | .error e => .error e
    | .ok (true, input) =>
      let n := find_first_of input '\x7d'
      if n = npos then
        -- `delimiter = ','; input.find_first_of(delimiter);` leaves `n` as it is
        arrayLoop fuel ',' n this tempJSON input
      else arrayLoop fuel '\x7d' n this tempJSON input
    | .ok (false, input) =>
      match ClearEnclosingChars '"' '"' input with
      | .error e => .error e
      | .ok (true, input) => .ok (.mk (some input) this.valueArray this.data this.function, input)
      | .ok (false, input) =>
        match ClearEnclosingChars '\x7b' '\x7d' input with
        | .error e => .error e
        | .ok (false, input) =>
          .ok (.mk (some input) this.valueArray this.data this.function, input)
        | .ok (true, input) => objectLoop fuel 1 this input
/-- Array loop of `StringToJSON` (`while (input.size() > 0)`), one unit of fuel per pass. -/
def arrayLoop : Nat → Char → Nat → JSON_OBJECT → JSON_OBJECT → Str →
    Except Exn (JSON_OBJECT × Str)
  | 0, _, _, _, _, _ => .error .out_of_fuel
  | fuel + 1, delimiter, n, this, tempJSON, input =>
    if input.length > 0 then
      let val := substr input 0 ((n + 1) % SIZE_T_RANGE)
      match StringToJSON fuel tempJSON val with
      | .error e => .error e
      | .ok (tempJSON, _) =>
        match push_back this tempJSON with
        | .error e => .error e
        | .ok this =>
          let n := find_first_of input delimiter
          let input :=
            if delimiter = '\x7d' then erase input 0 ((n + 2) % SIZE_T_RANGE)
            else erase input 0 ((n + 1) % SIZE_T_RANGE)
          arrayLoop fuel delimiter n this tempJSON input
    else .ok (this, input)
end

/-- Decoding a text into a fresh value: `JSON_OBJECT().StringToJSON(text)`. -/
def Decode (fuel : Nat) (text : Str) : Except Exn JSON_OBJECT :=
  match StringToJSON fuel Null text with
  | .error e => .error e
  | .ok (v, _) => .ok v

/-! ## Texts named by the specification -/

/-- The strings of a list joined by single commas. -/
def commaJoin : List Str → Str
  | [] => []
  | [x] => x
  | x :: y :: rest => x ++ ',' :: commaJoin (y :: rest)

/-- A string between two double quotes. -/
def quoted (s : Str) : Str := '"' :: (s ++ ['"'])

/-- Rendering `"key":value` of one object entry. -/
def entryText (p : Str × JSON_OBJECT) : Str := quoted p.1 ++ ':' :: JSONObjectToString p.2

/-- A sequence of `AddProperty` calls on one receiver, in list order, stopping at the first
exception. -/
def AddProperties : JSON_OBJECT → List (Str × JSON_OBJECT) → Except Exn JSON_OBJECT
  | this, [] => .ok this
  | this, (key, val) :: rest =>
    match AddProperty this key val with
    | .error e => .error e
    | .ok this => AddProperties this rest

/-- Text `"k":"v"` of one pair of a flat object. -/
def pairText (p : Str × Str) : Str := quoted p.1 ++ ':' :: quoted p.2

/-- Text of a flat object: the pairs `"k":"v"` joined by commas, between braces. -/
def flatObjectText (kvs : List (Str × Str)) : Str :=
  '\x7b' :: (commaJoin (kvs.map pairText) ++ ['\x7d'])

/-- Text of a flat array of quoted scalars: `["s1","s2",...]`. -/
def flatArrayText (ss : List Str) : Str := '[' :: (commaJoin (ss.map quoted) ++ [']'])

/-- Text of an array whose elements are the given texts: `[t1,t2,...]`. -/
def arrayText (ts : List Str) : Str := '[' :: (commaJoin ts ++ [']'])

/-- The characters the flat-text claims exclude from keys and scalars. -/
def structuralChars : List Char := ['"', ',', ':', '[', ']', '\x7b', '\x7d']

/-- No character of `s` is structural. -/
def plain (s : Str) : Prop := ∀ c ∈ s, c ∉ structuralChars

instance (s : Str) : Decidable (plain s) :=
  inferInstanceAs (Decidable (∀ c ∈ s, c ∉ structuralChars))

/-- The characters the round-trip claim excludes from string leaves and keys: quote,
braces, brackets and comma. -/
def roundTripChars : List Char := ['"', '\x7b', '\x7d', '[', ']', ',']

/-- No character of `s` is a quote, brace, bracket or comma. -/
def leafSafe (s : Str) : Prop := ∀ c ∈ s, c ∉ roundTripChars

instance (s : Str) : Decidable (leafSafe s) :=
  inferInstanceAs (Decidable (∀ c ∈ s, c ∉ roundTripChars))

/-- The object entry `k -> String(v)` of a pair of texts. -/
def stringEntry (p : Str × Str) : Str × JSON_OBJECT := (p.1, ofString p.2)

/-! ## Accessors -/

/-- Method `at(const std::string key)`, that is `(*data).at(key)`: the outcome and the
receiver afterwards.  `std::map::at` throws `std::out_of_range` for a missing key;
`*data` on an empty optional is undefined behaviour. -/
def at_ (this : JSON_OBJECT) (key : Str) : Except Exn JSON_OBJECT × JSON_OBJECT :=
  match this.data with
  | none => (.error .undefined_behaviour, this)
  | some m =>
    match map_find key m with
    | none => (.error .out_of_range, this)
    | some v => (.ok v, this)

/-- Method `operator[](const std::string& key)`: the outcome and the receiver afterwards.
The body is `try { return (*data)[key]; } catch (std::bad_optional_access) { ... }`:
`std::map::operator[]` inserts a default (null) value for a missing key; `*data` on an empty
optional is undefined behaviour and throws nothing, so the handler is never entered. -/
def operator_subscript (this : JSON_OBJECT) (key : Str) :
    Except Exn JSON_OBJECT × JSON_OBJECT :=
  match this with
  | .mk s a (some m) f =>
    (.ok ((map_find key m).getD Null), .mk s a (some (map_emplace key Null m)) f)
  | .mk s a none f => (.error .undefined_behaviour, .mk s a none f)

/-! ## The single-variant invariant -/

/-- Number of populated members among the four optionals. -/
def populated (s : Option Str) (a : Option (List JSON_OBJECT))
    (d : Option (List (Str × JSON_OBJECT))) (f : Option FuncHandle) : Nat :=
  (if s.isSome then 1 else 0) + (if a.isSome then 1 else 0) + (if d.isSome then 1 else 0)
    + (if f.isSome then 1 else 0)

mutual
/-- At most one member is populated, here and in every element and property value below. -/
def single_variant : JSON_OBJECT → Bool
  | .mk s none none f => decide (populated s none none f ≤ 1)
  | .mk s (some arr) none f => decide (populated s (some arr) none f ≤ 1) && all_single arr
  | .mk s none (some m) f => decide (populated s none (some m) f ≤ 1) && all_single_values m
  | .mk s (some arr) (some m) f =>
    decide (populated s (some arr) (some m) f ≤ 1) && all_single arr && all_single_values m
/-- Every element of an array satisfies `single_variant`. -/
def all_single : List JSON_OBJECT → Bool
  | [] => true
  | x :: xs => single_variant x && all_single xs
/-- Every property value of a map satisfies `single_variant`. -/
def all_single_values : List (Str × JSON_OBJECT) → Bool
  | [] => true
  | (_, x) :: xs => single_variant x && all_single_values xs
end

/-- Values obtained from the constructors by `push_back`, `AddProperty` (both overloads),
`Reset` and `StringToJSON` calls that return. -/
inductive Reachable : JSON_OBJECT → Prop where
  | default : Reachable Null
  | of_string (val : Str) : Reachable (ofString val)
  | of_function (func : FuncHandle) : Reachable (ofFunction func)
  | push_back {this val r : JSON_OBJECT} :
      Reachable this → Reachable val → push_back this val = .ok r → Reachable r
  | add_property {this val r : JSON_OBJECT} {key : Str} :
      Reachable this → Reachable val → AddProperty this key val = .ok r → Reachable r
  | add_property_string {this r : JSON_OBJECT} {key val : Str} :
      Reachable this → AddPropertyString this key val = .ok r → Reachable r
  | reset {this : JSON_OBJECT} : Reachable this → Reachable (Reset this)
  | decode {this r : JSON_OBJECT} {fuel : Nat} {input rest : Str} :
      Reachable this → StringToJSON fuel this input = .ok (r, rest) → Reachable r

/-! ## Arithmetic on `size_t` and string operations -/

theorem npos_val : npos = 2 ^ 64 - 1 := by norm_num [npos]

theorem size_t_range_val : SIZE_T_RANGE = 2 ^ 64 := by norm_num [SIZE_T_RANGE]

theorem npos_succ_wraps : (npos + 1) % SIZE_T_RANGE = 0 := by
  simp [npos, SIZE_T_RANGE]

theorem succ_no_wrap (n : Nat) (h : n < npos) : (n + 1) % SIZE_T_RANGE = n + 1 := by
  simp only [npos] at h
  simp only [SIZE_T_RANGE]
  omega

theorem index_zero_cons (x : Char) (xs : Str) : index (x :: xs) 0 = some x := by
  simp [index]

theorem index_last (xs : Str) (c : Char) : index (xs ++ [c]) xs.length = some c := by
  simp [index]

theorem erase_zero (s : Str) (n : Nat) : erase s 0 n = s.drop n := by
  simp [erase]

theorem substr_zero (s : Str) (n : Nat) : substr s 0 n = s.take n := by
  simp [substr]

theorem find_first_of_absent (s : Str) (c : Char) (h : c ∉ s) : find_first_of s c = npos := by
  simp [find_first_of, h]

theorem find_first_of_append (a b : Str) (c : Char) (h : c ∉ a) :
    find_first_of (a ++ c :: b) c = a.length := by
  have hm : c ∈ a ++ c :: b := by simp
  simp only [find_first_of, hm, if_true]
  induction a with
  | nil => simp
  | cons x xs ih =>
    have hx : x ≠ c := fun e => h (by simp [e])
    have hxs : c ∉ xs := fun e => h (by simp [e])
    simp [List.indexOf_cons, hx, ih hxs]

theorem clear_enclosed (c1 c2 : Char) (mid : Str) :
    ClearEnclosingChars c1 c2 (c1 :: (mid ++ [c2])) = .ok (true, mid) := by
  have h1 : size_minus_one (c1 :: (mid ++ [c2])) = (c1 :: mid).length := by
    simp [size_minus_one]
  have h2 : size_minus_one (mid ++ [c2]) = mid.length := by
    simp [size_minus_one]
  have h3 : index (c1 :: (mid ++ [c2])) (c1 :: mid).length = some c2 :=
    index_last (c1 :: mid) c2
  unfold ClearEnclosingChars
  rw [index_zero_cons, h1, h3]
  simp only [ne_eq, not_true_eq_false, if_false, erase_zero, List.drop_succ_cons,
    List.drop_zero, h2]
  simp [erase_from]

theorem clear_head_ne (c1 c2 x : Char) (xs : Str) (h : x ≠ c1) :
    ClearEnclosingChars c1 c2 (x :: xs) = .ok (false, x :: xs) := by
  simp [ClearEnclosingChars, index_zero_cons, h]

theorem clear_empty (c1 c2 : Char) (h : c1 ≠ Char.ofNat 0) :
    ClearEnclosingChars c1 c2 [] = .ok (false, []) := by
  simp [ClearEnclosingChars, index, Ne.symm h]

/-! ## Encoder -/

theorem arrayElements_append (arr : List JSON_OBJECT) (output : Str) :
    arrayElements arr output
      = output ++ (arr.map (fun e => JSONObjectToString e ++ [','])).flatten := by
  induction arr generalizing output with
  | nil => simp [arrayElements]
  | cons e es ih => simp [arrayElements, ih]

theorem objectProperties_append (m : List (Str × JSON_OBJECT)) (output : Str) :
    objectProperties m output = output ++ (m.map (fun p => entryText p ++ [','])).flatten := by
  induction m generalizing output with
  | nil => simp [objectProperties]
  | cons p ps ih =>
    obtain ⟨k, v⟩ := p
    simp [objectProperties, ih, entryText, quoted]

theorem flatten_comma (xs : List Str) (h : xs ≠ []) :
    (xs.map (fun x => x ++ [','])).flatten = commaJoin xs ++ [','] := by
  induction xs with
  | nil => exact absurd rfl h
  | cons x rest ih =>
    cases rest with
    | nil => simp [commaJoin]
    | cons y rest =>
      have := ih (by simp)
      simp only [List.map_cons, List.flatten_cons, commaJoin] at this ⊢
      rw [this]
      simp

theorem take_pred_snoc (l : Str) (c : Char) :
    (l ++ [c]).take ((l ++ [c]).length - 1) = l := by
  simp

/-- C9: an array with at least one element encodes to `[`, then the encodings of its
elements in index order joined by single commas, then `]`, with no trailing comma. -/
theorem encode_array_nonempty (elems : List JSON_OBJECT) (h : elems ≠ [])
    (d : Option (List (Str × JSON_OBJECT))) (f : Option FuncHandle) :
    JSONObjectToString (.mk none (some elems) d f)
      = '[' :: (commaJoin (elems.map JSONObjectToString) ++ [']']) := by
  have hm : elems.map JSONObjectToString ≠ [] := by simpa using h
  have h1 : arrayElements elems ['[']
      = ('[' :: commaJoin (elems.map JSONObjectToString)) ++ [','] := by
    rw [arrayElements_append]
    have := flatten_comma (elems.map JSONObjectToString) hm
    simp only [List.map_map] at this
    simp only [List.singleton_append, List.cons_append]
    rw [← this]
    rfl
  simp only [JSONObjectToString]
  rw [h1, take_pred_snoc]
  rfl

theorem encode_array_nonempty_witness :
    [ofString ['a'], ofString ['b']] ≠ [] ∧
    JSONObjectToString (ofArray [ofString ['a'], ofString ['b']])
      = ['[', '"', 'a', '"', ',', '"', 'b', '"', ']'] :=
  ⟨by simp, encode_array_nonempty [ofString ['a'], ofString ['b']] (by simp) none none⟩

/-- C7: on the empty array the encoder returns `]` and on the empty object it returns the
closing brace alone: the erase that should drop a trailing comma drops the opening character. -/
theorem encode_empty_collections :
    JSONObjectToString (ofArray []) = [']'] ∧ JSONObjectToString (ofMap []) = ['\x7d'] := by
  constructor <;> rfl


/-! ## The key order and `map_emplace` -/

theorem string_less_irrefl (a : Str) : string_less a a = false := by
  induction a with
  | nil => rfl
  | cons x xs ih => simp [string_less, ih]

theorem string_less_asymm (a b : Str) (h : string_less a b = true) :
    string_less b a = false := by
  induction a generalizing b with
  | nil => cases b <;> simp_all [string_less]
  | cons x xs ih =>
    cases b with
    | nil => simp [string_less] at h
    | cons y ys =>
      simp only [string_less] at h ⊢
      rcases lt_trichotomy x y with hxy | hxy | hxy
      · simp [hxy, lt_asymm hxy]
      · subst hxy
        simp only [lt_irrefl, if_false] at h ⊢
        exact ih ys h
      · simp [hxy, lt_asymm hxy] at h

theorem string_less_trans (a b c : Str) (hab : string_less a b = true)
    (hbc : string_less b c = true) : string_less a c = true := by
  induction a generalizing b c with
  | nil =>
    cases c with
    | nil => cases b <;> simp [string_less] at hbc
    | cons z zs => rfl
  | cons x xs ih =>
    cases b with
    | nil => simp [string_less] at hab
    | cons y ys =>
      cases c with
      | nil => simp [string_less] at hbc
      | cons z zs =>
        simp only [string_less] at hab hbc ⊢
        rcases lt_trichotomy x y with hxy | hxy | hxy
        · rcases lt_trichotomy y z with hyz | hyz | hyz
          · simp [lt_trans hxy hyz]
          · subst hyz; simp [hxy]
          · simp [hyz, lt_asymm hyz] at hbc
        · subst hxy
          rcases lt_trichotomy x z with hxz | hxz | hxz
          · simp [hxz]
          · subst hxz
            simp only [lt_irrefl, if_false] at hab hbc ⊢
            exact ih ys zs hab hbc
          · simp [hxz, lt_asymm hxz] at hbc
        · simp [hxy, lt_asymm hxy] at hab

theorem string_less_total (a b : Str) (hab : string_less a b = false)
    (hba : string_less b a = false) : a = b := by
  induction a generalizing b with
  | nil => cases b <;> simp_all [string_less]
  | cons x xs ih =>
    cases b with
    | nil => simp [string_less] at hba
    | cons y ys =>
      simp only [string_less] at hab hba
      rcases lt_trichotomy x y with hxy | hxy | hxy
      · simp [hxy] at hab
      · subst hxy
        simp only [lt_irrefl, if_false] at hab hba
        rw [ih ys hab hba]
      · simp [hxy] at hba

theorem map_find_none_iff {α : Type} (k : Str) (m : List (Str × α)) :
    map_find k m = none ↔ k ∉ m.map Prod.fst := by
  induction m with
  | nil => simp [map_find]
  | cons p ps ih =>
    obtain ⟨k', v'⟩ := p
    simp only [map_find, List.map_cons, List.mem_cons, not_or]
    by_cases h : k' = k
    · simp only [h, if_true]
      exact ⟨fun e => (by cases e), fun e => absurd trivial e.1⟩
    · simp only [h, if_false, ih]
      exact ⟨fun e => ⟨Ne.symm h, e⟩, fun e => e.2⟩

theorem mem_map_emplace {α : Type} (k : Str) (v : α) (m : List (Str × α)) (x : Str × α)
    (hx : x ∈ map_emplace k v m) : x = (k, v) ∨ x ∈ m := by
  induction m with
  | nil => simpa [map_emplace] using hx
  | cons p ps ih =>
    obtain ⟨k', v'⟩ := p
    simp only [map_emplace] at hx
    split at hx
    · simpa using hx
    · split at hx
      · rcases List.mem_cons.1 hx with h | h
        · exact Or.inr (by simp [h])
        · rcases ih h with h | h
          · exact Or.inl h
          · exact Or.inr (List.mem_cons_of_mem _ h)
      · exact Or.inr hx

theorem map_emplace_ok {α : Type} (k : Str) (v : α) (m : List (Str × α)) (h : map_ok m) :
    map_ok (map_emplace k v m) := by
  induction m with
  | nil => simp [map_emplace, map_ok]
  | cons p ps ih =>
    obtain ⟨k', v'⟩ := p
    have hp := List.pairwise_cons.1 h
    simp only [map_emplace]
    split
    · rename_i hlt
      refine List.pairwise_cons.2 ⟨?_, h⟩
      intro x hx
      rcases List.mem_cons.1 hx with e | e
      · simpa [e] using hlt
      · exact string_less_trans _ _ _ hlt (hp.1 x e)
    · split
      · rename_i hlt
        refine List.pairwise_cons.2 ⟨?_, ih hp.2⟩
        intro x hx
        rcases mem_map_emplace k v ps x hx with e | e
        · simpa [e] using hlt
        · exact hp.1 x e
      · exact h

theorem map_emplace_absent_perm {α : Type} (k : Str) (v : α) (m : List (Str × α))
    (h : k ∉ m.map Prod.fst) : (map_emplace k v m).Perm ((k, v) :: m) := by
  induction m with
  | nil => simp [map_emplace]
  | cons p ps ih =>
    obtain ⟨k', v'⟩ := p
    simp only [List.map_cons, List.mem_cons, not_or] at h
    have hk : k ≠ k' := h.1
    have hps : k ∉ ps.map Prod.fst := h.2
    simp only [map_emplace]
    split
    · exact List.Perm.refl _
    · split
      · exact ((ih hps).cons (k', v')).trans (List.Perm.swap _ _ _)
      · rename_i h1 h2
        exact absurd (string_less_total k k' (by simpa using h1) (by simpa using h2)) hk

theorem map_emplace_present {α : Type} (k : Str) (v : α) (m : List (Str × α)) (hm : map_ok m)
    (h : k ∈ m.map Prod.fst) : map_emplace k v m = m := by
  induction m with
  | nil => simp at h
  | cons p ps ih =>
    obtain ⟨k', v'⟩ := p
    have hp := List.pairwise_cons.1 hm
    simp only [map_emplace]
    by_cases hk : k = k'
    · subst hk
      simp [string_less_irrefl]
    · have hin : k ∈ ps.map Prod.fst := by
        simp only [List.map_cons, List.mem_cons] at h
        rcases h with h | h
        · exact absurd h hk
        · exact h
      obtain ⟨x, hx, hxk⟩ := List.mem_map.1 hin
      have hlt : string_less k' k = true := by
        have := hp.1 x hx
        rwa [hxk] at this
      simp [string_less_asymm _ _ hlt, hlt, ih hp.2 hin]

theorem map_find_emplace_other {α : Type} (k k' : Str) (v : α) (m : List (Str × α))
    (h : k' ≠ k) : map_find k' (map_emplace k v m) = map_find k' m := by
  induction m with
  | nil => simp [map_emplace, map_find, Ne.symm h]
  | cons p ps ih =>
    obtain ⟨k0, v0⟩ := p
    simp only [map_emplace]
    split
    · simp [map_find, Ne.symm h]
    · split
      · simp [map_find, ih]
      · rfl

theorem map_find_emplace_absent {α : Type} (k : Str) (v : α) (m : List (Str × α))
    (h : map_find k m = none) : map_find k (map_emplace k v m) = some v := by
  induction m with
  | nil => simp [map_emplace, map_find]
  | cons p ps ih =>
    obtain ⟨k0, v0⟩ := p
    simp only [map_find] at h
    split at h
    · cases h
    · rename_i hne
      simp only [map_emplace]
      split
      · simp [map_find]
      · split
        · simp [map_find, hne, ih h]
        · rename_i h1 h2
          exact absurd (string_less_total k k0 (by simpa using h1) (by simpa using h2)).symm hne

theorem map_emplace_snoc {α : Type} (k : Str) (v : α) (m : List (Str × α))
    (h : map_ok (m ++ [(k, v)])) : map_emplace k v m = m ++ [(k, v)] := by
  induction m with
  | nil => rfl
  | cons p ps ih =>
    obtain ⟨k0, v0⟩ := p
    have hp := List.pairwise_cons.1 h
    have hlt : string_less k0 k = true := hp.1 (k, v) (by simp)
    simp [map_emplace, string_less_asymm _ _ hlt, hlt, ih hp.2]

theorem foldl_emplace_ok {α : Type} (kvs : List (Str × α)) (m : List (Str × α))
    (h : map_ok m) : map_ok (kvs.foldl (fun acc p => map_emplace p.1 p.2 acc) m) := by
  induction kvs generalizing m with
  | nil => exact h
  | cons p ps ih => exact ih _ (map_emplace_ok p.1 p.2 m h)

theorem foldl_emplace_perm {α : Type} (kvs : List (Str × α)) (m : List (Str × α))
    (h : ((m ++ kvs).map Prod.fst).Nodup) :
    (kvs.foldl (fun acc p => map_emplace p.1 p.2 acc) m).Perm (m ++ kvs) := by
  induction kvs generalizing m with
  | nil => simp
  | cons p ps ih =>
    have hmid : (m ++ p :: ps).Perm ((p :: m) ++ ps) := List.perm_middle
    have hnd : (((p :: m) ++ ps).map Prod.fst).Nodup := (hmid.map Prod.fst).nodup_iff.1 h
    have hp : p.1 ∉ m.map Prod.fst := by
      have h0 : (p.1 :: ((m ++ ps).map Prod.fst)).Nodup := hnd
      have h1 := List.nodup_cons.1 h0
      intro hin
      exact h1.1 (by
        rw [List.map_append, List.mem_append]
        exact Or.inl hin)
    have hpe : (map_emplace p.1 p.2 m).Perm (p :: m) := map_emplace_absent_perm p.1 p.2 m hp
    have hnd2 : (((map_emplace p.1 p.2 m) ++ ps).map Prod.fst).Nodup :=
      (((hpe.append_right ps).map Prod.fst).nodup_iff).2 hnd
    exact ((ih (map_emplace p.1 p.2 m) hnd2).trans (hpe.append_right ps)).trans hmid.symm

theorem foldl_emplace_sorted {α : Type} (suf pre : List (Str × α)) (h : map_ok (pre ++ suf)) :
    suf.foldl (fun acc p => map_emplace p.1 p.2 acc) pre = pre ++ suf := by
  induction suf generalizing pre with
  | nil => simp
  | cons p ps ih =>
    have h1 : map_ok ((pre ++ [p]) ++ ps) := by simpa using h
    have h2 : map_ok (pre ++ [p]) := (List.pairwise_append.1 h1).1
    simp only [List.foldl_cons]
    rw [map_emplace_snoc p.1 p.2 pre h2, ih (pre ++ [p]) h1]
    simp

theorem addProperties_map (kvs : List (Str × JSON_OBJECT)) (m : List (Str × JSON_OBJECT)) :
    AddProperties (ofMap m) kvs
      = .ok (ofMap (kvs.foldl (fun acc p => map_emplace p.1 p.2 acc) m)) := by
  induction kvs generalizing m with
  | nil => rfl
  | cons p ps ih =>
    obtain ⟨k, v⟩ := p
    simp only [AddProperties, ofMap, AddProperty, List.foldl_cons]
    exact ih _

theorem addProperties_null (kvs : List (Str × JSON_OBJECT)) (h : kvs ≠ []) :
    AddProperties Null kvs
      = .ok (ofMap (kvs.foldl (fun acc p => map_emplace p.1 p.2 acc) [])) := by
  cases kvs with
  | nil => exact absurd rfl h
  | cons p ps =>
    obtain ⟨k, v⟩ := p
    exact addProperties_map ps [(k, v)]

theorem encode_map_nonempty (m : List (Str × JSON_OBJECT)) (h : m ≠ [])
    (f : Option FuncHandle) :
    JSONObjectToString (.mk none none (some m) f)
      = '\x7b' :: (commaJoin (m.map entryText) ++ ['\x7d']) := by
  have hm : m.map entryText ≠ [] := by simpa using h
  have h1 : objectProperties m ['\x7b']
      = ('\x7b' :: commaJoin (m.map entryText)) ++ [','] := by
    rw [objectProperties_append]
    have := flatten_comma (m.map entryText) hm
    simp only [List.map_map] at this
    simp only [List.singleton_append, List.cons_append]
    rw [← this]
    rfl
  simp only [JSONObjectToString]
  rw [h1, take_pred_snoc]
  rfl

theorem key_order_antisymm :
    IsAntisymm (Str × JSON_OBJECT) (fun a b => string_less a.1 b.1 = true) :=
  ⟨fun a b hab hba => by
    rw [string_less_asymm _ _ hab] at hba
    cases hba⟩

/-- C8: entries with pairwise distinct keys, set on a fresh value by `AddProperty` in any
order, give an object whose encoding is the opening brace, the pairs `"key":Encode(value)` in
strictly ascending key order joined by single commas, and the closing brace; every order of
the same entries gives this same text. -/
theorem encode_object_key_sorted (kvs : List (Str × JSON_OBJECT)) (hne : kvs ≠ [])
    (hd : (kvs.map Prod.fst).Nodup) :
    ∃ es : List (Str × JSON_OBJECT), es.Perm kvs ∧
      es.Pairwise (fun a b => string_less a.1 b.1 = true) ∧
      ∀ kvs' : List (Str × JSON_OBJECT), kvs'.Perm kvs →
        ∃ o, AddProperties Null kvs' = .ok o ∧
          JSONObjectToString o = '\x7b' :: (commaJoin (es.map entryText) ++ ['\x7d']) := by
  have key : ∀ l : List (Str × JSON_OBJECT), l.Perm kvs →
      (l.foldl (fun acc p => map_emplace p.1 p.2 acc) []).Perm kvs ∧
      map_ok (l.foldl (fun acc p => map_emplace p.1 p.2 acc) []) := by
    intro l hl
    have hnd : (([] ++ l).map Prod.fst).Nodup := by
      simpa using ((hl.map Prod.fst).nodup_iff).2 hd
    exact ⟨by simpa using (foldl_emplace_perm l [] hnd).trans hl,
      foldl_emplace_ok l [] List.Pairwise.nil⟩
  refine ⟨kvs.foldl (fun acc (p : Str × JSON_OBJECT) => map_emplace p.1 p.2 acc) [],
    (key kvs (List.Perm.refl _)).1,
    (key kvs (List.Perm.refl _)).2, ?_⟩
  intro kvs' hp
  have hne' : kvs' ≠ [] := fun e => hne (by simpa [e] using hp.symm)
  have heq : kvs'.foldl (fun acc p => map_emplace p.1 p.2 acc) []
      = kvs.foldl (fun acc p => map_emplace p.1 p.2 acc) [] := by
    haveI := key_order_antisymm
    exact List.eq_of_perm_of_sorted ((key kvs' hp).1.trans (key kvs (List.Perm.refl _)).1.symm)
      (key kvs' hp).2 (key kvs (List.Perm.refl _)).2
  refine ⟨_, addProperties_null kvs' hne', ?_⟩
  rw [heq]
  have hne2 : kvs.foldl (fun acc p => map_emplace p.1 p.2 acc) [] ≠ [] := fun e =>
    hne (by simpa [e] using (key kvs (List.Perm.refl _)).1.symm)
  exact encode_map_nonempty _ hne2 none

theorem encode_object_key_sorted_witness :
    [(['b'], ofString ['2']), (['a'], ofString ['1'])] ≠ [] ∧
    ([(['b'], ofString ['2']), (['a'], ofString ['1'])].map Prod.fst).Nodup ∧
    ∃ es : List (Str × JSON_OBJECT),
      es.Perm [(['b'], ofString ['2']), (['a'], ofString ['1'])] ∧
      es.Pairwise (fun a b => string_less a.1 b.1 = true) ∧
      ∀ kvs' : List (Str × JSON_OBJECT),
        kvs'.Perm [(['b'], ofString ['2']), (['a'], ofString ['1'])] →
        ∃ o, AddProperties Null kvs' = .ok o ∧
          JSONObjectToString o = '\x7b' :: (commaJoin (es.map entryText) ++ ['\x7d']) :=
  ⟨by simp, by decide,
    encode_object_key_sorted [(['b'], ofString ['2']), (['a'], ofString ['1'])] (by simp)
      (by decide)⟩

/-- C10 (as stated, refuted): setting a key that is already present leaves the old entry in
place, so the entry stored at the key afterwards is not the value passed in. -/
theorem addProperty_existing_key_kept :
    AddProperty (ofMap [(['a'], ofString ['1'])]) ['a'] (ofString ['2'])
        = .ok (ofMap [(['a'], ofString ['1'])]) ∧
      map_find ['a'] [(['a'], ofString ['1'])] = some (ofString ['1']) ∧
      ofString ['1'] ≠ ofString ['2'] := by
  refine ⟨rfl, rfl, ?_⟩
  intro h
  simp [ofString] at h

/-- C10 (amended): `AddProperty` on a null value gives the object with the one entry; on an
object lacking the key it adds the entry; on an object that has the key it changes nothing;
entries at other keys are never changed. -/
theorem addProperty_inserts_only (k : Str) (v : JSON_OBJECT) (m : List (Str × JSON_OBJECT))
    (hm : map_ok m) :
    AddProperty Null k v = .ok (ofMap [(k, v)]) ∧
    ∃ m', AddProperty (ofMap m) k v = .ok (ofMap m') ∧ map_ok m' ∧
      (map_find k m = none → map_find k m' = some v) ∧
      (map_find k m ≠ none → m' = m) ∧
      ∀ k', k' ≠ k → map_find k' m' = map_find k' m := by
  refine ⟨rfl, map_emplace k v m, rfl, map_emplace_ok k v m hm, ?_, ?_, ?_⟩
  · exact map_find_emplace_absent k v m
  · intro h
    have : k ∈ m.map Prod.fst := by
      by_contra hc
      exact h ((map_find_none_iff k m).2 hc)
    exact map_emplace_present k v m hm this
  · exact fun k' hk' => map_find_emplace_other k k' v m hk'

theorem addProperty_inserts_only_witness :
    map_ok [(['a'], ofString ['1'])] ∧
    AddProperty Null ['b'] Null = .ok (ofMap [(['b'], Null)]) ∧
    ∃ m', AddProperty (ofMap [(['a'], ofString ['1'])]) ['b'] Null = .ok (ofMap m') ∧
      map_ok m' ∧
      (map_find ['b'] [(['a'], ofString ['1'])] = none → map_find ['b'] m' = some Null) ∧
      (map_find ['b'] [(['a'], ofString ['1'])] ≠ none → m' = [(['a'], ofString ['1'])]) ∧
      ∀ k', k' ≠ ['b'] → map_find k' m' = map_find k' [(['a'], ofString ['1'])] :=
  ⟨by decide, addProperty_inserts_only ['b'] Null [(['a'], ofString ['1'])] (by decide)⟩

/-! ## Decoder: the object loop -/

theorem clear_quoted (s : Str) : ClearEnclosingChars '"' '"' (quoted s) = .ok (true, s) :=
  clear_enclosed '"' '"' s

theorem quoted_length (s : Str) : (quoted s).length = s.length + 2 := by
  simp [quoted]

theorem colon_not_mem_quoted (k : Str) (hk : ':' ∉ k) : ':' ∉ quoted k := by
  simp [quoted, hk]

theorem objectLoop_exit (fuel : Nat) (this : JSON_OBJECT) (input : Str) :
    objectLoop (fuel + 1) npos this input = .ok (this, input) := by
  simp [objectLoop]

/-- One pass of the object loop over `"k":valText,rest`. -/
theorem objectLoop_step (fuel e : Nat) (he : e ≠ npos) (this : JSON_OBJECT)
    (k valText v rest : Str) (b : Bool) (hk : ':' ∉ k) (hv : ',' ∉ valText)
    (hclr : ClearEnclosingChars '"' '"' valText = .ok (b, v))
    (hlen : (quoted k ++ ':' :: (valText ++ ',' :: rest)).length < npos) :
    objectLoop (fuel + 1) e this (quoted k ++ ':' :: (valText ++ ',' :: rest))
      = match AddPropertyString this k v with
        | .error x => .error x
        | .ok this' => objectLoop fuel valText.length this' rest := by
  have hl : k.length + 2 + 1 + valText.length + 1 + rest.length < npos := by
    simp only [List.length_append, List.length_cons, quoted_length] at hlen
    omega
  have h1 : find_first_of (quoted k ++ ':' :: (valText ++ ',' :: rest)) ':' = k.length + 2 := by
    rw [find_first_of_append _ _ _ (colon_not_mem_quoted k hk), quoted_length]
  have h2 : List.take (k.length + 2) (quoted k ++ ':' :: (valText ++ ',' :: rest)) = quoted k := by
    rw [← quoted_length, List.take_left']
    rfl
  have h3 : (k.length + 2 + 1) % SIZE_T_RANGE = k.length + 2 + 1 := succ_no_wrap _ (by omega)
  have h4 : List.drop (k.length + 2 + 1) (quoted k ++ ':' :: (valText ++ ',' :: rest))
      = valText ++ ',' :: rest := by
    have : quoted k ++ ':' :: (valText ++ ',' :: rest)
        = (quoted k ++ [':']) ++ (valText ++ ',' :: rest) := by simp
    rw [this, List.drop_left']
    simp [quoted_length]
  have h5 : find_first_of (valText ++ ',' :: rest) ',' = valText.length :=
    find_first_of_append _ _ _ hv
  have h6 : List.take valText.length (valText ++ ',' :: rest) = valText := List.take_left' rfl
  have h7 : (valText.length + 1) % SIZE_T_RANGE = valText.length + 1 :=
    succ_no_wrap _ (by omega)
  have h8 : List.drop (valText.length + 1) (valText ++ ',' :: rest) = rest := by
    have : valText ++ ',' :: rest = (valText ++ [',']) ++ rest := by simp
    rw [this, List.drop_left']
    simp
  rw [objectLoop]
  simp only [ne_eq, he, not_false_eq_true, if_true, h1, substr_zero, h2, clear_quoted, h3,
    erase_zero, h4, h5, h6, hclr, h7, h8]

/-- The last pass of the object loop, over `"k":valText` with no comma left. -/
theorem objectLoop_last (fuel e : Nat) (he : e ≠ npos) (this : JSON_OBJECT)
    (k valText v : Str) (b : Bool) (hk : ':' ∉ k) (hv : ',' ∉ valText)
    (hclr : ClearEnclosingChars '"' '"' valText = .ok (b, v))
    (hlen : (quoted k ++ ':' :: valText).length < npos) :
    objectLoop (fuel + 2) e this (quoted k ++ ':' :: valText)
      = match AddPropertyString this k v with
        | .error x => .error x
        | .ok this' => .ok (this', valText) := by
  have hl : k.length + 2 + 1 + valText.length < npos := by
    simp only [List.length_append, List.length_cons, quoted_length] at hlen
    omega
  have h1 : find_first_of (quoted k ++ ':' :: valText) ':' = k.length + 2 := by
    rw [find_first_of_append _ _ _ (colon_not_mem_quoted k hk), quoted_length]
  have h2 : List.take (k.length + 2) (quoted k ++ ':' :: valText) = quoted k := by
    rw [← quoted_length, List.take_left']
    rfl
  have h3 : (k.length + 2 + 1) % SIZE_T_RANGE = k.length + 2 + 1 := succ_no_wrap _ (by omega)
  have h4 : List.drop (k.length + 2 + 1) (quoted k ++ ':' :: valText) = valText := by
    have : quoted k ++ ':' :: valText = (quoted k ++ [':']) ++ valText := by simp
    rw [this, List.drop_left']
    simp [quoted_length]
  have h5 : find_first_of valText ',' = npos := find_first_of_absent _ _ hv
  have h6 : List.take npos valText = valText := List.take_of_length_le (by omega)
  rw [objectLoop]
  simp only [ne_eq, he, not_false_eq_true, if_true, h1, substr_zero, h2, clear_quoted, h3,
    erase_zero, h4, h5, h6, hclr, npos_succ_wraps, List.drop_zero, objectLoop_exit]

theorem addPropertyString_fresh (d : Option (List (Str × JSON_OBJECT))) (k v : Str) :
    AddPropertyString (.mk none none d none) k v
      = .ok (ofMap (map_emplace k (ofString v) (d.getD []))) := by
  cases d <;> rfl

/-- The object loop over the body of a flat object text performs one `AddProperty` per pair,
in textual order. -/
theorem objectLoop_flat (kvs : List (Str × Str)) (hne : kvs ≠ [])
    (hk : ∀ p ∈ kvs, ':' ∉ p.1) (hv : ∀ p ∈ kvs, ',' ∉ p.2) :
    ∀ (fuel e : Nat) (d : Option (List (Str × JSON_OBJECT))), e ≠ npos →
      kvs.length + 1 ≤ fuel → (commaJoin (kvs.map pairText)).length < npos →
      ∃ rest, objectLoop fuel e (.mk none none d none) (commaJoin (kvs.map pairText))
        = .ok (ofMap (kvs.foldl (fun acc p => map_emplace p.1 (ofString p.2) acc) (d.getD [])),
            rest) := by
  induction kvs with
  | nil => exact absurd rfl hne
  | cons p ps ih =>
    intro fuel e d he hf hlen
    have hkp : ':' ∉ p.1 := hk p (List.mem_cons_self _ _)
    have hvp : ',' ∉ quoted p.2 := by
      have := hv p (List.mem_cons_self _ _)
      simp [quoted, this]
    cases ps with
    | nil =>
      obtain ⟨fuel, rfl⟩ : ∃ f, fuel = f + 2 := ⟨fuel - 2, by simp at hf; omega⟩
      simp only [List.map_cons, List.map_nil, commaJoin, pairText] at hlen ⊢
      rw [objectLoop_last fuel e he _ p.1 (quoted p.2) p.2 true hkp hvp (clear_quoted p.2) hlen,
        addPropertyString_fresh]
      exact ⟨_, rfl⟩
    | cons q qs =>
      obtain ⟨fuel, rfl⟩ : ∃ f, fuel = f + 1 := ⟨fuel - 1, by simp at hf; omega⟩
      have hshape : commaJoin ((p :: q :: qs).map pairText)
          = quoted p.1 ++ ':' :: (quoted p.2 ++ ',' :: commaJoin ((q :: qs).map pairText)) := by
        simp [commaJoin, pairText]
      rw [hshape] at hlen ⊢
      rw [objectLoop_step fuel e he _ p.1 (quoted p.2) p.2 _ true hkp hvp (clear_quoted p.2) hlen,
        addPropertyString_fresh]
      have hlen2 : (commaJoin ((q :: qs).map pairText)).length < npos := by
        simp only [List.length_append, List.length_cons] at hlen
        omega
      have he2 : (quoted p.2).length ≠ npos := by
        simp only [List.length_append, List.length_cons] at hlen
        omega
      obtain ⟨rest, hrest⟩ := ih (by simp) (fun x hx => hk x (List.mem_cons_of_mem _ hx))
        (fun x hx => hv x (List.mem_cons_of_mem _ hx)) fuel (quoted p.2).length
        (some (map_emplace p.1 (ofString p.2) (d.getD []))) he2
        (by simp at hf ⊢; omega) hlen2
      exact ⟨rest, hrest⟩

/-! ## Decoder: entry of `StringToJSON` -/

theorem stringToJSON_braced (fuel : Nat) (this : JSON_OBJECT) (body : Str) :
    StringToJSON (fuel + 1) this ('\x7b' :: (body ++ ['\x7d'])) = objectLoop fuel 1 Null body := by
  rw [StringToJSON]
  simp only [clear_head_ne '[' ']' '\x7b' _ (by decide), clear_head_ne '"' '"' '\x7b' _ (by decide),
    clear_enclosed, Reset, Null]

theorem stringToJSON_quoted (fuel : Nat) (this : JSON_OBJECT) (s : Str) :
    StringToJSON (fuel + 1) this (quoted s) = .ok (ofString s, s) := by
  rw [StringToJSON]
  have h1 : ClearEnclosingChars '[' ']' (quoted s) = .ok (false, quoted s) :=
    clear_head_ne '[' ']' '"' _ (by decide)
  simp only [h1, clear_quoted, Reset]
  rfl

theorem stringToJSON_empty (fuel : Nat) (this : JSON_OBJECT) :
    StringToJSON (fuel + 1) this [] = .ok (ofString [], []) := by
  rw [StringToJSON]
  simp only [clear_empty '[' ']' (by decide), clear_empty '"' '"' (by decide),
    clear_empty '\x7b' '\x7d' (by decide), Reset]
  rfl

theorem stringToJSON_bracketed (fuel : Nat) (this : JSON_OBJECT) (body : Str) :
    StringToJSON (fuel + 1) this ('[' :: (body ++ [']']))
      = if find_first_of body '\x7d' = npos then
          arrayLoop fuel ',' (find_first_of body '\x7d') Null Null body
        else arrayLoop fuel '\x7d' (find_first_of body '\x7d') Null Null body := by
  rw [StringToJSON]
  simp only [clear_enclosed, Reset, Null]

theorem plain_no_colon (s : Str) (h : plain s) : ':' ∉ s :=
  fun hin => h ':' hin (by decide)

theorem plain_no_comma (s : Str) (h : plain s) : ',' ∉ s :=
  fun hin => h ',' hin (by decide)

theorem leafSafe_no_comma (s : Str) (h : leafSafe s) : ',' ∉ s :=
  fun hin => h ',' hin (by decide)

theorem foldl_stringEntry (kvs : List (Str × Str)) (m : List (Str × JSON_OBJECT)) :
    kvs.foldl (fun acc p => map_emplace p.1 (ofString p.2) acc) m
      = (kvs.map stringEntry).foldl (fun acc p => map_emplace p.1 p.2 acc) m := by
  rw [List.foldl_map]
  rfl

/-- Decoding a flat object text: the value is the object built by one `AddProperty` per pair,
in textual order. -/
theorem stringToJSON_flat_object (kvs : List (Str × Str)) (hne : kvs ≠ [])
    (hk : ∀ p ∈ kvs, ':' ∉ p.1) (hv : ∀ p ∈ kvs, ',' ∉ p.2)
    (hlen : (flatObjectText kvs).length < npos) (fuel : Nat) (hf : kvs.length + 2 ≤ fuel)
    (this : JSON_OBJECT) :
    ∃ rest, StringToJSON fuel this (flatObjectText kvs)
      = .ok (ofMap ((kvs.map stringEntry).foldl (fun acc p => map_emplace p.1 p.2 acc) []),
          rest) := by
  obtain ⟨fuel, rfl⟩ : ∃ f, fuel = f + 1 := ⟨fuel - 1, by omega⟩
  have hlen2 : (commaJoin (kvs.map pairText)).length < npos := by
    simp only [flatObjectText, List.length_cons, List.length_append] at hlen
    omega
  obtain ⟨rest, hrest⟩ := objectLoop_flat kvs hne hk hv fuel 1 none (by decide) (by omega) hlen2
  refine ⟨rest, ?_⟩
  rw [flatObjectText, stringToJSON_braced, ← foldl_stringEntry]
  exact hrest

/-- C4: a flat object text with pairwise distinct keys, keys and values free of structural
characters, pairs in any textual order, decodes (given enough fuel) to an object whose
entries are exactly `ki -> String(vi)`. -/
theorem decode_flat_object (kvs : List (Str × Str)) (hne : kvs ≠ [])
    (hd : (kvs.map Prod.fst).Nodup) (hp : ∀ p ∈ kvs, plain p.1 ∧ plain p.2)
    (hlen : (flatObjectText kvs).length < npos) (fuel : Nat) (hf : kvs.length + 2 ≤ fuel)
    (this : JSON_OBJECT) :
    ∃ m rest, StringToJSON fuel this (flatObjectText kvs) = .ok (ofMap m, rest) ∧
      m.Perm (kvs.map stringEntry) ∧ map_ok m := by
  obtain ⟨rest, hrest⟩ := stringToJSON_flat_object kvs hne
    (fun p hp' => plain_no_colon _ (hp p hp').1) (fun p hp' => plain_no_comma _ (hp p hp').2)
    hlen fuel hf this
  refine ⟨_, rest, hrest, ?_, foldl_emplace_ok _ _ List.Pairwise.nil⟩
  have hkeys : (kvs.map stringEntry).map Prod.fst = kvs.map Prod.fst := by
    rw [List.map_map]
    rfl
  have := foldl_emplace_perm (kvs.map stringEntry) [] (by rw [List.nil_append, hkeys]; exact hd)
  simpa using this

theorem decode_flat_object_witness :
    ∃ m rest, StringToJSON 3 Null (flatObjectText [(['a'], ['1'])]) = .ok (ofMap m, rest) ∧
      m.Perm ([(['a'], ['1'])].map stringEntry) ∧ map_ok m :=
  decode_flat_object [(['a'], ['1'])] (by simp) (by decide)
    (by decide) (by decide) 3 (by decide) Null

/-- C6: the text of an object with one property whose value text has no comma and starts
with a brace or a bracket decodes to the object with that one entry, the value being a
string leaf that holds the value text verbatim. -/
theorem decode_property_value_verbatim (k t : Str) (_hk1 : '"' ∉ k) (hk2 : ':' ∉ k)
    (ht : ',' ∉ t) (hstart : t.head? = some '\x7b' ∨ t.head? = some '[')
    (hlen : ('\x7b' :: ((quoted k ++ ':' :: t) ++ ['\x7d'])).length < npos)
    (fuel : Nat) (hf : 3 ≤ fuel) (this : JSON_OBJECT) :
    ∃ rest, StringToJSON fuel this ('\x7b' :: ((quoted k ++ ':' :: t) ++ ['\x7d']))
      = .ok (ofMap [(k, ofString t)], rest) := by
  obtain ⟨fuel, rfl⟩ : ∃ f, fuel = f + 3 := ⟨fuel - 3, by omega⟩
  have hclr : ClearEnclosingChars '"' '"' t = .ok (false, t) := by
    cases t with
    | nil => simp at hstart
    | cons x xs =>
      apply clear_head_ne
      rcases hstart with h | h <;> simp at h <;> subst h <;> decide
  have hlen2 : (quoted k ++ ':' :: t).length < npos := by
    simp only [List.length_cons, List.length_append] at hlen ⊢
    omega
  rw [stringToJSON_braced, objectLoop_last fuel 1 (by decide) Null k t t false hk2 ht hclr hlen2]
  exact ⟨t, rfl⟩

theorem decode_property_value_verbatim_witness :
    ∃ rest, StringToJSON 3 Null
        ('\x7b' :: ((quoted ['a'] ++ ':' :: "\x7b\"b\":\"1\"\x7d".toList) ++ ['\x7d']))
      = .ok (ofMap [(['a'], ofString "\x7b\"b\":\"1\"\x7d".toList)], rest) :=
  decode_property_value_verbatim ['a'] "\x7b\"b\":\"1\"\x7d".toList (by decide) (by decide)
    (by decide) (Or.inl rfl) (by decide) 3 (by decide) Null

/-! ## Decoder: the array loop -/

theorem push_back_array_or_null (this val : JSON_OBJECT)
    (h : this = Null ∨ ∃ a, this = ofArray a) : ∃ a, push_back this val = .ok (ofArray a) := by
  rcases h with h | ⟨a, h⟩
  · exact ⟨[val], by rw [h]; rfl⟩
  · exact ⟨a ++ [val], by rw [h]; rfl⟩

/-- With the comma delimiter and no comma left in a non-empty buffer, a pass of the array
loop erases nothing, so no amount of fuel lets the loop end. -/
theorem arrayLoop_comma_stuck (input : Str) (hne : input ≠ []) (hc : ',' ∉ input) :
    ∀ (fuel : Nat) (this tempJSON : JSON_OBJECT), (this = Null ∨ ∃ a, this = ofArray a) →
      arrayLoop fuel ',' npos this tempJSON input = .error .out_of_fuel := by
  have hpos : input.length > 0 := List.length_pos.2 hne
  intro fuel
  induction fuel with
  | zero => intro this tempJSON _; rfl
  | succ fuel ih =>
    intro this tempJSON hthis
    rw [arrayLoop]
    simp only [hpos, if_true, npos_succ_wraps, substr_zero, List.take_zero]
    cases fuel with
    | zero => rfl
    | succ fuel =>
      obtain ⟨a, ha⟩ := push_back_array_or_null this (ofString []) hthis
      simp only [stringToJSON_empty, ha, find_first_of_absent input ',' hc, npos_succ_wraps,
        erase_zero, List.drop_zero]
      have hd : (',' : Char) ≠ '\x7d' := by decide
      simp only [hd, if_false]
      exact ih (ofArray a) (ofString []) (Or.inr ⟨a, rfl⟩)

/-- C3: on the text `[a]` the decoder never returns: whatever the fuel, the array loop is
still running when the fuel is spent. -/
theorem decode_bracketed_scalar_diverges :
    ∀ (fuel : Nat) (this : JSON_OBJECT),
      StringToJSON fuel this ['[', 'a', ']'] = .error .out_of_fuel := by
  intro fuel this
  cases fuel with
  | zero => rfl
  | succ fuel =>
    have h := stringToJSON_bracketed fuel this ['a']
    have hf : find_first_of ['a'] '\x7d' = npos := find_first_of_absent _ _ (by decide)
    rw [hf] at h
    simp only [if_true] at h
    have h2 : (['[', 'a', ']'] : Str) = '[' :: (['a'] ++ [']']) := rfl
    rw [h2, h]
    exact arrayLoop_comma_stuck ['a'] (by simp) (by decide) fuel Null Null (Or.inl rfl)

/-- C2: on the text `["a","b"]` the decoder never returns: after the second element the
buffer `"b"` holds no comma, nothing more is erased, and the loop runs until the fuel is
spent, whatever the fuel. -/
theorem decode_flat_array_diverges :
    flatArrayText [['a'], ['b']] = ['[', '"', 'a', '"', ',', '"', 'b', '"', ']'] ∧
    ∀ (fuel : Nat) (this : JSON_OBJECT),
      StringToJSON fuel this (flatArrayText [['a'], ['b']]) = .error .out_of_fuel := by
  refine ⟨rfl, ?_⟩
  intro fuel this
  rcases fuel with _ | _ | _ | _ | fuel
  · rfl
  · rfl
  · rfl
  · rfl
  · have h1 : StringToJSON (fuel + 4) this (flatArrayText [['a'], ['b']])
        = arrayLoop (fuel + 1) ',' npos (ofArray [ofString [], ofString ['b']]) (ofString ['b'])
            ['"', 'b', '"'] := rfl
    rw [h1]
    exact arrayLoop_comma_stuck _ (by simp) (by decide) _ _ _ (Or.inr ⟨_, rfl⟩)

/-- C5: on the text `[{"a":"1"},{"bb":"2"}]` the second element is cut at the length of the
first one: it is the string leaf holding the unclosed text, not the object that the second
element text decodes to on its own. -/
theorem decode_array_of_objects_stale_length :
    arrayText [flatObjectText [(['a'], ['1'])], flatObjectText [(['b', 'b'], ['2'])]]
      = "[\x7b\"a\":\"1\"\x7d,\x7b\"bb\":\"2\"\x7d]".toList ∧
    (∀ (fuel : Nat) (this : JSON_OBJECT),
      StringToJSON (fuel + 5) this
          (arrayText [flatObjectText [(['a'], ['1'])], flatObjectText [(['b', 'b'], ['2'])]])
        = .ok (ofArray [ofMap [(['a'], ofString ['1'])], ofString "\x7b\"bb\":\"2\"".toList],
            [])) ∧
    (∀ (fuel : Nat) (this : JSON_OBJECT),
      StringToJSON (fuel + 3) this (flatObjectText [(['b', 'b'], ['2'])])
        = .ok (ofMap [(['b', 'b'], ofString ['2'])], ['"', '2', '"'])) :=
  ⟨by decide, fun _ _ => rfl, fun _ _ => rfl⟩

/-! ## Round trip -/

theorem entryText_stringEntry (p : Str × Str) : entryText (stringEntry p) = pairText p := by
  simp [entryText, stringEntry, pairText, ofString, JSONObjectToString, quoted]

theorem encode_flat_object (kvs : List (Str × Str)) (hne : kvs ≠ []) :
    JSONObjectToString (ofMap (kvs.map stringEntry)) = flatObjectText kvs := by
  have h : kvs.map stringEntry ≠ [] := by simpa using hne
  rw [ofMap, encode_map_nonempty _ h, flatObjectText, List.map_map]
  have : (entryText ∘ stringEntry) = pairText := funext entryText_stringEntry
  rw [this]

/-- C1 (as stated, refuted): the null value has no string leaf at all, encodes to the text
`null`, and that text decodes to the string leaf `null`; no fuel makes it decode to null. -/
theorem round_trip_null_fails :
    JSONObjectToString Null = ['n', 'u', 'l', 'l'] ∧
      Decode 1 (JSONObjectToString Null) = .ok (ofString ['n', 'u', 'l', 'l']) ∧
      ¬ ∃ fuel, Decode fuel (JSONObjectToString Null) = .ok Null := by
  refine ⟨rfl, rfl, ?_⟩
  rintro ⟨fuel, h⟩
  cases fuel with
  | zero => cases h
  | succ fuel =>
    have h2 : Decode (fuel + 1) (JSONObjectToString Null) = .ok (ofString ['n', 'u', 'l', 'l']) :=
      rfl
    rw [h2] at h
    simp [ofString, Null] at h

/-- C1 (amended): a string leaf, and an object with at least one entry whose values are all
string leaves, with leaves and keys free of quote, brace, bracket and comma and keys free of
colon, decode from their encoding to themselves (given enough fuel). -/
theorem round_trip_leaf_and_flat_object (s : Str) (kvs : List (Str × Str)) (fuel : Nat)
    (_hs : leafSafe s) (hne : kvs ≠ []) (hok : map_ok (kvs.map stringEntry))
    (hp : ∀ p ∈ kvs, leafSafe p.1 ∧ ':' ∉ p.1 ∧ leafSafe p.2)
    (hlen : (JSONObjectToString (ofMap (kvs.map stringEntry))).length < npos)
    (hf : kvs.length + 2 ≤ fuel) :
    Decode fuel (JSONObjectToString (ofString s)) = .ok (ofString s) ∧
    Decode fuel (JSONObjectToString (ofMap (kvs.map stringEntry)))
      = .ok (ofMap (kvs.map stringEntry)) := by
  constructor
  · obtain ⟨fuel, rfl⟩ : ∃ f, fuel = f + 1 := ⟨fuel - 1, by omega⟩
    have : JSONObjectToString (ofString s) = quoted s := by
      simp [ofString, JSONObjectToString, quoted]
    rw [Decode, this, stringToJSON_quoted]
  · rw [encode_flat_object kvs hne] at hlen ⊢
    obtain ⟨rest, hrest⟩ := stringToJSON_flat_object kvs hne (fun p hp' => (hp p hp').2.1)
      (fun p hp' => leafSafe_no_comma _ (hp p hp').2.2) hlen fuel hf Null
    have hs := foldl_emplace_sorted (kvs.map stringEntry) [] (by simpa using hok)
    rw [hs, List.nil_append] at hrest
    rw [Decode, hrest]

theorem round_trip_leaf_and_flat_object_witness :
    Decode 4 (JSONObjectToString (ofString ['x'])) = .ok (ofString ['x']) ∧
    Decode 4 (JSONObjectToString (ofMap ([(['a'], ['1']), (['b'], ['2'])].map stringEntry)))
      = .ok (ofMap ([(['a'], ['1']), (['b'], ['2'])].map stringEntry)) :=
  round_trip_leaf_and_flat_object ['x'] [(['a'], ['1']), (['b'], ['2'])] 4
    (by decide) (by simp) (by decide) (by decide) (by decide) (by decide)


/-! ## Mutators and accessors -/

/-- C11: `push_back` on an array appends the value at the end, the earlier elements staying
where they are; on the null value it gives the one-element array. -/
theorem push_back_appends (s : Option Str) (a : List JSON_OBJECT)
    (d : Option (List (Str × JSON_OBJECT))) (f : Option FuncHandle) (v : JSON_OBJECT) :
    push_back (.mk s (some a) d f) v = .ok (.mk s (some (a ++ [v])) d f) ∧
    push_back (ofArray a) v = .ok (ofArray (a ++ [v])) ∧
    (a ++ [v]).length = a.length + 1 ∧
    (∀ i, i < a.length → (a ++ [v]).get? i = a.get? i) ∧
    (a ++ [v]).get? a.length = some v ∧
    push_back Null v = .ok (ofArray [v]) := by
  refine ⟨rfl, rfl, by simp, ?_, by simp, rfl⟩
  intro i hi
  simp [List.getElem?_append_left hi]

/-- C12: `push_back` throws `std::logic_error` on a string, an object and a function value
and succeeds on the null value and on an array; `AddProperty` throws `std::logic_error` on a
string, an array and a function value and succeeds on the null value and on an object. -/
theorem promotion_errors (s : Str) (a : List JSON_OBJECT) (m : List (Str × JSON_OBJECT))
    (f : FuncHandle) (k : Str) (v : JSON_OBJECT) :
    (push_back (ofString s) v = .error .logic_error ∧
      push_back (ofMap m) v = .error .logic_error ∧
      push_back (ofFunction f) v = .error .logic_error ∧
      push_back Null v = .ok (ofArray [v]) ∧
      push_back (ofArray a) v = .ok (ofArray (a ++ [v]))) ∧
    (AddProperty (ofString s) k v = .error .logic_error ∧
      AddProperty (ofArray a) k v = .error .logic_error ∧
      AddProperty (ofFunction f) k v = .error .logic_error ∧
      AddProperty Null k v = .ok (ofMap [(k, v)]) ∧
      AddProperty (ofMap m) k v = .ok (ofMap (map_emplace k v m))) ∧
    (AddPropertyString (ofString s) k s = .error .logic_error ∧
      AddPropertyString (ofArray a) k s = .error .logic_error ∧
      AddPropertyString (ofFunction f) k s = .error .logic_error ∧
      AddPropertyString Null k s = .ok (ofMap [(k, ofString s)]) ∧
      AddPropertyString (ofMap m) k s = .ok (ofMap (map_emplace k (ofString s) m))) :=
  ⟨⟨rfl, rfl, rfl, rfl, rfl⟩, ⟨rfl, rfl, rfl, rfl, rfl⟩, ⟨rfl, rfl, rfl, rfl, rfl⟩⟩

theorem map_find_of_mem {α : Type} (k : Str) (v : α) (m : List (Str × α)) (hm : map_ok m)
    (h : (k, v) ∈ m) : map_find k m = some v := by
  induction m with
  | nil => cases h
  | cons p ps ih =>
    obtain ⟨k0, v0⟩ := p
    have hp := List.pairwise_cons.1 hm
    rcases List.mem_cons.1 h with e | e
    · cases e
      simp [map_find]
    · have hlt : string_less k0 k = true := hp.1 (k, v) e
      have hne : k0 ≠ k := by
        intro e0
        rw [e0, string_less_irrefl] at hlt
        cases hlt
      simp [map_find, hne, ih hp.2 e]

/-- C13: on an object, `at` returns the value stored at a present key and throws
`std::out_of_range` for an absent key; the receiver is the same afterwards in both cases. -/
theorem at_checked_lookup (m : List (Str × JSON_OBJECT)) (hm : map_ok m) (k : Str) :
    (∀ v, (k, v) ∈ m → at_ (ofMap m) k = (.ok v, ofMap m)) ∧
    (k ∉ m.map Prod.fst → at_ (ofMap m) k = (.error .out_of_range, ofMap m)) ∧
    (at_ (ofMap m) k).2 = ofMap m := by
  refine ⟨?_, ?_, ?_⟩
  · intro v hv
    simp [at_, ofMap, JSON_OBJECT.data, map_find_of_mem k v m hm hv]
  · intro hk
    simp [at_, ofMap, JSON_OBJECT.data, (map_find_none_iff k m).2 hk]
  · simp only [at_, ofMap, JSON_OBJECT.data]
    cases map_find k m <;> rfl

theorem at_checked_lookup_witness :
    map_ok [(['a'], ofString ['1'])] ∧
    at_ (ofMap [(['a'], ofString ['1'])]) ['a']
      = (.ok (ofString ['1']), ofMap [(['a'], ofString ['1'])]) ∧
    at_ (ofMap [(['a'], ofString ['1'])]) ['b']
      = (.error .out_of_range, ofMap [(['a'], ofString ['1'])]) :=
  ⟨by decide,
    (at_checked_lookup [(['a'], ofString ['1'])] (by decide) ['a']).1 _ (by simp),
    (at_checked_lookup [(['a'], ofString ['1'])] (by decide) ['b']).2.1 (by decide)⟩

/-- C14: keyed access on the null value and on a string value dereferences the empty
optional `data`: undefined behaviour, no promotion to an object and no `std::logic_error`.
On an object lacking the key it does insert the null entry. -/
theorem operator_subscript_on_non_object :
    operator_subscript Null ['k'] = (.error .undefined_behaviour, Null) ∧
    operator_subscript (ofString ['x']) ['k'] = (.error .undefined_behaviour, ofString ['x']) ∧
    operator_subscript (ofArray []) ['k'] = (.error .undefined_behaviour, ofArray []) ∧
    operator_subscript (ofFunction 0) ['k'] = (.error .undefined_behaviour, ofFunction 0) ∧
    operator_subscript (ofMap [(['a'], ofString ['1'])]) ['k']
      = (.ok Null, ofMap [(['a'], ofString ['1']), (['k'], Null)]) :=
  ⟨rfl, rfl, rfl, rfl, rfl⟩

/-- C15: on the one-character buffer that equals both delimiters the test passes, the first
erase empties the buffer and the second erase, at index `npos`, throws `std::out_of_range`;
the decoder hits this on the text made of one double quote.  On the empty buffer with the
terminator as first delimiter the second test reads `s[npos]`. -/
theorem clear_degenerate_buffer_faults :
    ClearEnclosingChars '"' '"' ['"'] = .error .out_of_range ∧
    ClearEnclosingChars 'x' 'x' ['x'] = .error .out_of_range ∧
    ClearEnclosingChars (Char.ofNat 0) ']' [] = .error .undefined_behaviour ∧
    (∀ (fuel : Nat) (this : JSON_OBJECT),
      StringToJSON (fuel + 1) this ['"'] = .error .out_of_range) :=
  ⟨rfl, rfl, rfl, fun _ _ => rfl⟩

/-- C17: the null value and a function value encode to the text `null`; a string value
encodes to its characters, unchanged, between two double quotes. -/
theorem encode_leaves (s : Str) (f : FuncHandle) :
    JSONObjectToString Null = ['n', 'u', 'l', 'l'] ∧
    JSONObjectToString (ofFunction f) = ['n', 'u', 'l', 'l'] ∧
    JSONObjectToString (ofString s) = '"' :: (s ++ ['"']) ∧
    (JSONObjectToString (ofString s)).length = s.length + 2 := by
  refine ⟨rfl, rfl, ?_, ?_⟩ <;> simp [ofString, JSONObjectToString]

/-- C20: whatever the text and whatever the receiver held before, decoding the encoding of a
string value gives that string value (one unit of fuel is enough). -/
theorem scalar_round_trip (s : Str) (fuel : Nat) (this : JSON_OBJECT) :
    StringToJSON (fuel + 1) this (JSONObjectToString (ofString s)) = .ok (ofString s, s) := by
  have : JSONObjectToString (ofString s) = quoted s := by
    simp [ofString, JSONObjectToString, quoted]
  rw [this, stringToJSON_quoted]


/-! ## Decoder: empty collections -/

theorem push_back_isArray (this val r : JSON_OBJECT) (h : push_back this val = .ok r) :
    IsArray r = true := by
  obtain ⟨s, a, d, f⟩ := this
  cases a with
  | some a =>
    simp only [push_back, Except.ok.injEq] at h
    rw [← h]
    rfl
  | none =>
    simp only [push_back] at h
    split at h
    · cases h
    · simp only [Except.ok.injEq] at h
      rw [← h]
      rfl

/-- When the array loop returns, the receiver holds an array as soon as it held one before
or the buffer was not empty. -/
theorem arrayLoop_isArray :
    ∀ (fuel : Nat) (delimiter : Char) (n : Nat) (this tempJSON : JSON_OBJECT) (input : Str)
      (r : JSON_OBJECT) (rest : Str),
      arrayLoop fuel delimiter n this tempJSON input = .ok (r, rest) →
      (IsArray this = true ∨ input ≠ []) → IsArray r = true := by
  intro fuel
  induction fuel with
  | zero =>
    intro delimiter n this tempJSON input r rest h
    cases h
  | succ fuel ih =>
    intro delimiter n this tempJSON input r rest h hpre
    rw [arrayLoop] at h
    by_cases hlen : input.length > 0
    · simp only [hlen, if_true] at h
      cases hS : StringToJSON fuel tempJSON (substr input 0 ((n + 1) % SIZE_T_RANGE)) with
      | error e =>
        simp only [hS] at h
        cases h
      | ok p =>
        obtain ⟨t, x⟩ := p
        simp only [hS] at h
        cases hP : push_back this t with
        | error e =>
          simp only [hP] at h
          cases h
        | ok this' =>
          simp only [hP] at h
          exact ih _ _ _ _ _ _ _ h (Or.inl (push_back_isArray _ _ _ hP))
    · simp only [hlen, if_false, Prod.mk.injEq, Except.ok.injEq] at h
      have hnil : input = [] := by
        cases input with
        | nil => rfl
        | cons x xs => exact absurd (by simp) hlen
      rcases hpre with hpre | hpre
      · rw [← h.1]; exact hpre
      · exact absurd hnil hpre

/-- C18: the text `[]` decodes to the null value, which holds no array; a bracketed text
with a non-empty body, when the decoder returns, does give a value holding an array. -/
theorem decode_empty_brackets_is_null :
    (∀ (fuel : Nat) (this : JSON_OBJECT),
      StringToJSON (fuel + 2) this ['[', ']'] = .ok (Null, [])) ∧
    IsArray Null = false ∧
    (∀ (fuel : Nat) (this : JSON_OBJECT) (body : Str) (r : JSON_OBJECT) (rest : Str),
      body ≠ [] → StringToJSON fuel this ('[' :: (body ++ [']'])) = .ok (r, rest) →
      IsArray r = true) := by
  refine ⟨fun _ _ => rfl, rfl, ?_⟩
  intro fuel this body r rest hb h
  cases fuel with
  | zero => cases h
  | succ fuel =>
    rw [stringToJSON_bracketed] at h
    split at h <;> exact arrayLoop_isArray _ _ _ _ _ _ _ _ h (Or.inr hb)

/-- C19: the first pass of the object loop always runs, so the text of the empty object
decodes to an object with one entry, the empty key holding the empty string; a body with
no colon and a comma gives one entry per pass. -/
theorem decode_empty_braces_adds_entry :
    (∀ (fuel : Nat) (this : JSON_OBJECT),
      StringToJSON (fuel + 3) this ['\x7b', '\x7d'] = .ok (ofMap [([], ofString [])], [])) ∧
    (∀ (fuel : Nat) (this : JSON_OBJECT),
      StringToJSON (fuel + 4) this ['\x7b', 'a', ',', 'b', '\x7d']
        = .ok (ofMap [(['a', ',', 'b'], ofString ['a']), (['b'], ofString ['b'])], ['b'])) :=
  ⟨fun _ _ => rfl, fun _ _ => rfl⟩


/-! ## The single-variant invariant -/

theorem single_variant_ofString (s : Str) : single_variant (ofString s) = true := rfl

theorem single_variant_null : single_variant Null = true := rfl

theorem single_variant_ofArray (a : List JSON_OBJECT) :
    single_variant (ofArray a) = all_single a := by
  simp [ofArray, single_variant, populated]

theorem single_variant_ofMap (m : List (Str × JSON_OBJECT)) :
    single_variant (ofMap m) = all_single_values m := by
  simp [ofMap, single_variant, populated]

theorem all_single_append (a b : List JSON_OBJECT) :
    all_single (a ++ b) = (all_single a && all_single b) := by
  induction a with
  | nil => simp [all_single]
  | cons x xs ih => simp [all_single, ih, Bool.and_assoc]

theorem all_single_values_emplace (k : Str) (v : JSON_OBJECT) (m : List (Str × JSON_OBJECT))
    (hv : single_variant v = true) (hm : all_single_values m = true) :
    all_single_values (map_emplace k v m) = true := by
  induction m with
  | nil => simp [map_emplace, all_single_values, hv]
  | cons p ps ih =>
    obtain ⟨k0, v0⟩ := p
    simp only [all_single_values, Bool.and_eq_true] at hm
    simp only [map_emplace]
    split
    · simp [all_single_values, hv, hm.1, hm.2]
    · split
      · simp [all_single_values, hm.1, ih hm.2]
      · simp [all_single_values, hm.1, hm.2]

/-- A value that satisfies the invariant and holds an array holds nothing else. -/
theorem single_variant_array_shape (s : Option Str) (a : List JSON_OBJECT)
    (d : Option (List (Str × JSON_OBJECT))) (f : Option FuncHandle)
    (h : single_variant (.mk s (some a) d f) = true) :
    s = none ∧ d = none ∧ f = none ∧ all_single a = true := by
  cases s <;> cases d <;> cases f <;> simp_all [single_variant, populated]

/-- A value that satisfies the invariant and holds a map holds nothing else. -/
theorem single_variant_map_shape (s : Option Str) (a : Option (List JSON_OBJECT))
    (m : List (Str × JSON_OBJECT)) (f : Option FuncHandle)
    (h : single_variant (.mk s a (some m) f) = true) :
    s = none ∧ a = none ∧ f = none ∧ all_single_values m = true := by
  cases s <;> cases a <;> cases f <;> simp_all [single_variant, populated]

theorem isNull_shape (s : Option Str) (a : Option (List JSON_OBJECT))
    (d : Option (List (Str × JSON_OBJECT))) (f : Option FuncHandle)
    (h : IsNull (.mk s a d f) = true) : s = none ∧ a = none ∧ d = none ∧ f = none := by
  cases s <;> cases a <;> cases d <;> cases f <;>
    simp_all [IsNull, JSON_OBJECT.singleValue, JSON_OBJECT.valueArray, JSON_OBJECT.data,
      JSON_OBJECT.function]

theorem push_back_single_variant (this val r : JSON_OBJECT)
    (ht : single_variant this = true) (hv : single_variant val = true)
    (h : push_back this val = .ok r) : single_variant r = true := by
  obtain ⟨s, a, d, f⟩ := this
  cases a with
  | some a =>
    obtain ⟨rfl, rfl, rfl, ha⟩ := single_variant_array_shape s a d f ht
    simp only [push_back, Except.ok.injEq] at h
    rw [← h]
    have := single_variant_ofArray (a ++ [val])
    rw [ofArray] at this
    rw [this, all_single_append, ha]
    simp [all_single, hv]
  | none =>
    simp only [push_back] at h
    split at h
    · cases h
    · rename_i hn
      simp only [Bool.not_eq_true, Bool.not_eq_false'] at hn
      obtain ⟨rfl, -, rfl, rfl⟩ := isNull_shape _ _ _ _ hn
      simp only [Except.ok.injEq] at h
      rw [← h]
      have := single_variant_ofArray [val]
      rw [ofArray] at this
      rw [this]
      simp [all_single, hv]

theorem addProperty_single_variant (this val r : JSON_OBJECT) (key : Str)
    (ht : single_variant this = true) (hv : single_variant val = true)
    (h : AddProperty this key val = .ok r) : single_variant r = true := by
  obtain ⟨s, a, d, f⟩ := this
  cases d with
  | some m =>
    obtain ⟨rfl, rfl, rfl, hm⟩ := single_variant_map_shape s a m f ht
    simp only [AddProperty, Except.ok.injEq] at h
    rw [← h]
    have := single_variant_ofMap (map_emplace key val m)
    rw [ofMap] at this
    rw [this]
    exact all_single_values_emplace key val m hv hm
  | none =>
    simp only [AddProperty] at h
    split at h
    · cases h
    · rename_i hn
      simp only [Bool.not_eq_true, Bool.not_eq_false'] at hn
      obtain ⟨rfl, rfl, -, rfl⟩ := isNull_shape _ _ _ _ hn
      simp only [Except.ok.injEq] at h
      rw [← h]
      have := single_variant_ofMap [(key, val)]
      rw [ofMap] at this
      rw [this]
      simp [all_single_values, hv]


theorem objectLoop_single_variant :
    ∀ (fuel e : Nat) (this : JSON_OBJECT) (input : Str) (r : JSON_OBJECT) (rest : Str),
      single_variant this = true → objectLoop fuel e this input = .ok (r, rest) →
      single_variant r = true := by
  intro fuel
  induction fuel with
  | zero =>
    intro e this input r rest _ h
    cases h
  | succ fuel ih =>
    intro e this input r rest ht h
    rw [objectLoop] at h
    by_cases he : e = npos
    · simp only [he, ne_eq, not_true_eq_false, if_false, Except.ok.injEq, Prod.mk.injEq] at h
      rw [← h.1]
      exact ht
    · simp only [ne_eq, he, not_false_eq_true, if_true] at h
      cases hK : ClearEnclosingChars '"' '"' (substr input 0 (find_first_of input ':')) with
      | error x =>
        simp only [hK] at h
        cases h
      | ok p =>
        obtain ⟨b1, key⟩ := p
        simp only [hK] at h
        cases hV : ClearEnclosingChars '"' '"'
            (substr (erase input 0 ((find_first_of input ':' + 1) % SIZE_T_RANGE)) 0
              (find_first_of (erase input 0 ((find_first_of input ':' + 1) % SIZE_T_RANGE))
                ',')) with
        | error x =>
          simp only [hV] at h
          cases h
        | ok q =>
          obtain ⟨b2, val⟩ := q
          simp only [hV] at h
          cases hA : AddPropertyString this key val with
          | error x =>
            simp only [hA] at h
            cases h
          | ok this' =>
            simp only [hA] at h
            exact ih _ _ _ _ _
              (addProperty_single_variant this (ofString val) this' key ht
                (single_variant_ofString val) hA) h

theorem decoder_single_variant :
    ∀ fuel : Nat,
      (∀ (this : JSON_OBJECT) (input : Str) (r : JSON_OBJECT) (rest : Str),
        StringToJSON fuel this input = .ok (r, rest) → single_variant r = true) ∧
      (∀ (delimiter : Char) (n : Nat) (this tempJSON : JSON_OBJECT) (input : Str)
        (r : JSON_OBJECT) (rest : Str), single_variant this = true →
        arrayLoop fuel delimiter n this tempJSON input = .ok (r, rest) →
        single_variant r = true) := by
  intro fuel
  induction fuel with
  | zero =>
    exact ⟨fun _ _ _ _ h => (by cases h), fun _ _ _ _ _ _ _ _ h => (by cases h)⟩
  | succ fuel ih =>
    obtain ⟨ihS, ihA⟩ := ih
    constructor
    · intro this input r rest h
      rw [StringToJSON] at h
      simp only [Reset] at h
      cases h1 : ClearEnclosingChars '[' ']' input with
      | error x =>
        simp only [h1] at h
        cases h
      | ok p =>
        obtain ⟨b, input1⟩ := p
        cases b with
        | true =>
          simp only [h1] at h
          split at h <;> exact ihA _ _ _ _ _ _ _ single_variant_null h
        | false =>
          simp only [h1] at h
          cases h2 : ClearEnclosingChars '"' '"' input1 with
          | error x =>
            simp only [h2] at h
            cases h
          | ok p2 =>
            obtain ⟨b2, input2⟩ := p2
            cases b2 with
            | true =>
              simp only [h2, Except.ok.injEq, Prod.mk.injEq] at h
              rw [← h.1]
              exact single_variant_ofString input2
            | false =>
              simp only [h2] at h
              cases h3 : ClearEnclosingChars '\x7b' '\x7d' input2 with
              | error x =>
                simp only [h3] at h
                cases h
              | ok p3 =>
                obtain ⟨b3, input3⟩ := p3
                cases b3 with
                | true =>
                  simp only [h3] at h
                  exact objectLoop_single_variant _ _ _ _ _ _ single_variant_null h
                | false =>
                  simp only [h3, Except.ok.injEq, Prod.mk.injEq] at h
                  rw [← h.1]
                  exact single_variant_ofString input3
    · intro delimiter n this tempJSON input r rest ht h
      rw [arrayLoop] at h
      by_cases hlen : input.length > 0
      · simp only [hlen, if_true] at h
        cases hS : StringToJSON fuel tempJSON (substr input 0 ((n + 1) % SIZE_T_RANGE)) with
        | error e =>
          simp only [hS] at h
          cases h
        | ok p =>
          obtain ⟨t, x⟩ := p
          simp only [hS] at h
          cases hP : push_back this t with
          | error e =>
            simp only [hP] at h
            cases h
          | ok this' =>
            simp only [hP] at h
            exact ihA _ _ _ _ _ _ _
              (push_back_single_variant this t this' ht (ihS _ _ _ _ hS) hP) h
      · simp only [hlen, if_false, Prod.mk.injEq, Except.ok.injEq] at h
        rw [← h.1]
        exact ht

/-- C16: every value obtained from the constructors by `push_back`, `AddProperty` (both
overloads), `Reset` and `StringToJSON` calls that return has at most one of its four members
populated, and so has every element and property value nested inside it. -/
theorem reachable_single_variant (v : JSON_OBJECT) (h : Reachable v) :
    single_variant v = true := by
  induction h with
  | default => rfl
  | of_string val => rfl
  | of_function func => rfl
  | push_back _ _ hp iht ihv => exact push_back_single_variant _ _ _ iht ihv hp
  | add_property _ _ hp iht ihv => exact addProperty_single_variant _ _ _ _ iht ihv hp
  | add_property_string _ hp iht =>
    exact addProperty_single_variant _ _ _ _ iht (single_variant_ofString _) hp
  | reset _ _ => rfl
  | decode _ hd _ => exact (decoder_single_variant _).1 _ _ _ _ hd

theorem reachable_single_variant_witness :
    Reachable (ofArray [ofMap [(['a'], ofString ['1'])]]) ∧
    single_variant (ofArray [ofMap [(['a'], ofString ['1'])]]) = true :=
  have hr : Reachable (ofArray [ofMap [(['a'], ofString ['1'])]]) :=
    Reachable.push_back Reachable.default
      (@Reachable.add_property_string Null _ ['a'] ['1'] Reachable.default rfl)
      rfl
  ⟨hr, reachable_single_variant _ hr⟩

end JsonObject
